import Mathlib

/-!
Shallow embedding of `src/process_data.py` (stocks-dashboard).

A price table (`pandas.DataFrame` indexed by date, one column per ticker)
is modelled as a list of rows `(date, row)`, a date being an integer day
number and a row a list of optional rationals (`none` = NaN / missing).
A single ticker series (`pandas.Series`) is a list of `(date, value?)`.

Week convention for `resample('W')` (weeks ending Sunday, labelled by the
ending Sunday): a date `d : Int` falls on a Sunday iff `d % 7 = 0`; the
epoch alignment is a modelling choice and the theorems quantify over all
start days.
-/

namespace StocksDashboard

abbrev Row := List (Option ℚ)
abbrev Table := List (Int × Row)
abbrev Series := List (Int × Option ℚ)

/-- Model of `DataFrame.drop_duplicates(keep='last')`: a row is kept iff no row
strictly after it has the same value tuple.  The date index is ignored by
pandas here; only `r.2` (the values) is compared, `NaN` comparing equal to
`NaN` (as pandas' `duplicated` does). -/
def dropDupKeepLast : Table → Table
  | [] => []
  | x :: xs =>
    if xs.any (fun y => y.2 = x.2) then dropDupKeepLast xs
    else x :: dropDupKeepLast xs

/-- Model of `update_prices` (src/process_data.py:52-65):
`pd.concat([prices, prices_incremental], axis=0)` then
`drop_duplicates(keep='last')`.  The `to_parquet` side effect is outside
the embedding. -/
def update_prices (prices prices_incremental : Table) : Table :=
  dropDupKeepLast (prices ++ prices_incremental)

/-- Model of `Series.dropna()`: keep only the entries whose value is present. -/
def dropna (s : Series) : List (Int × ℚ) :=
  s.filterMap (fun p => match p.2 with | some v => some (p.1, v) | none => none)

/-- Tail of `Series.pct_change()` once a previous observation `prev`
exists: each entry becomes `(p - prev) / prev`. -/
def pctGo (prev : ℚ) : List (Int × ℚ) → Series
  | [] => []
  | (d, p) :: rest => (d, some ((p - prev) / prev)) :: pctGo p rest

/-- Model of `Series.pct_change()` on an all-present series: the first entry is
NaN, entry `t ≥ 1` is `(p[t] - p[t-1]) / p[t-1]`. -/
def pct_change : List (Int × ℚ) → Series
  | [] => []
  | (d, p) :: rest => (d, none) :: pctGo p rest

/-- Model of `compute_daily_returns` (src/process_data.py:68-79):
`prices.dropna().pct_change()`. -/
def compute_daily_returns (prices : Series) : Series :=
  pct_change (dropna prices)

/-- The label of the weekly resampling bin containing day `d`: the first
Sunday (`% 7 = 0`) at or after `d`. -/
def weekLabel (d : Int) : Int := d + (7 - d % 7) % 7

/-- Value forward-filled to label `L`: the last observation dated `≤ L`
(`0` if none exists; never hit for the labels produced below). -/
def lastObsLE (L : Int) (xs : List (Int × ℚ)) : ℚ :=
  xs.foldl (fun acc p => if p.1 ≤ L then p.2 else acc) 0

/-- The weekly bin labels spanned by a (chronological) observation list:
the Sundays from the first observation's week to the last observation's
week. -/
def weekLabels : List (Int × ℚ) → List Int
  | [] => []
  | x :: xs =>
    (List.range ((weekLabel (xs.getLastD x).1 - weekLabel x.1).toNat / 7 + 1)).map
      (fun i => weekLabel x.1 + 7 * Int.ofNat i)

/-- Model of `resample('W').ffill()`: one entry per weekly label, holding the last
known observation at or before that label. -/
def resampleWeeklyFfill (xs : List (Int × ℚ)) : List (Int × ℚ) :=
  (weekLabels xs).map (fun L => (L, lastObsLE L xs))

/-- Model of `compute_weekly_returns` (src/process_data.py:82-93):
`prices.dropna().resample('W').ffill().pct_change()`. -/
def compute_weekly_returns (prices : Series) : Series :=
  pct_change (resampleWeeklyFfill (dropna prices))

/-- Model of `prices[col]`: the series of column `j` of a table. -/
def colSeries (t : Table) (j : Nat) : Series :=
  t.map (fun r => (r.1, r.2.getD j none))

/-- Index alignment of `pd.concat(..., axis=1)`: the value a column
contributes at date `d` (NaN when the column has no entry at `d`). -/
def lookupVal (col : Series) (d : Int) : Option ℚ :=
  match col.find? (fun p => p.1 = d) with
  | some p => p.2
  | none => none

/-- The union of the date indexes of the given columns. -/
def unionDates (cols : List Series) : List Int :=
  ((cols.map (fun c => c.map Prod.fst)).flatten).dedup

/-- Model of `pd.concat(cols, axis=1)`: one row per date in the union of the
indexes, each column aligned by date. -/
def concatCols (cols : List Series) : Table :=
  (unionDates cols).map (fun d => (d, cols.map (fun c => lookupVal c d)))

/-- Model of `DataFrame.dropna(how='all', axis=0)`: drop the rows whose values are
all missing. -/
def dropAllNaRows (t : Table) : Table :=
  t.filter (fun r => r.2.any (fun v => v.isSome))

/-- Model of `get_returns` (src/process_data.py:97-116) on a table with `w`
columns: per-column daily and weekly returns, concatenated column-wise,
all-NaN rows dropped.  Returns the (daily, weekly) pair that the Python
code persists to parquet. -/
def get_returns (prices : Table) (w : Nat) : Table × Table :=
  (dropAllNaRows (concatCols
      ((List.range w).map (fun j => compute_daily_returns (colSeries prices j)))),
   dropAllNaRows (concatCols
      ((List.range w).map (fun j => compute_weekly_returns (colSeries prices j)))))

/-- Model of `prices.index.max()` (junk value `0` on an empty table). -/
def latestDate (t : Table) : Int :=
  ((t.map Prod.fst).max?).getD 0

/-- Observable outcome of `main` (src/process_data.py:120-140): which
start date (if any) was passed to `get_incremental_data`, the price table
used afterwards, and the persisted daily/weekly return tables. -/
structure MainOut where
  fetchedSince : Option Int
  finalPrices : Table
  dailyOut : Table
  weeklyOut : Table

/-- Model of `main` (src/process_data.py:120-140), with I/O abstracted:
`fileExists` is the `os.path.exists('./data/prices.parquet')` test,
`initData` the result of `get_initial_data`, `fetchIncr` the function
`get_incremental_data tickers`, `today` the current time in days
(fractional, since `dt.datetime.today()` carries a time of day), `cached`
the parquet contents, `w` the number of ticker columns. -/
def mainRun (fileExists : Bool) (initData : Table) (fetchIncr : Int → Table)
    (today : ℚ) (cached : Table) (w : Nat) : MainOut :=
  let prices := if fileExists then cached else initData
  let latest := latestDate prices
  if (latest : ℚ) < today - 2 then
    let merged := update_prices prices (fetchIncr latest)
    ⟨some latest, merged, (get_returns merged w).1, (get_returns merged w).2⟩
  else
    ⟨none, prices, (get_returns prices w).1, (get_returns prices w).2⟩

/-- Daily series with one observation per day for `n` days starting at
`d0`, with values `vals`. -/
def mkDaily (d0 : Int) (n : Nat) (vals : Nat → ℚ) : Series :=
  (List.range n).map (fun i => (d0 + Int.ofNat i, some (vals i)))

theorem dropDupKeepLast_sublist (t : Table) : List.Sublist (dropDupKeepLast t) t := by
  induction t with
  | nil => simp [dropDupKeepLast]
  | cons x xs ih =>
    by_cases h : (xs.any (fun y => y.2 = x.2)) = true
    · simp only [dropDupKeepLast, h, if_true]
      exact ih.cons x
    · simp only [dropDupKeepLast, h, if_false]
      exact ih.cons₂ x

theorem pairwise_le_mem_getLast :
    ∀ (l : List Int), l.Pairwise (· ≤ ·) → ∀ x ∈ l, ∀ b ∈ l.getLast?, x ≤ b := by
  intro l
  induction l with
  | nil => intro _ x hx; exact absurd hx (List.not_mem_nil x)
  | cons a t ih =>
    intro hp x hx b hb
    rcases List.pairwise_cons.1 hp with ⟨ha, ht⟩
    cases t with
    | nil =>
      simp only [List.getLast?_singleton, Option.mem_def, Option.some.injEq] at hb
      rcases List.mem_singleton.1 hx with rfl
      exact hb ▸ le_refl x
    | cons c t' =>
      have hb' : b ∈ (c :: t').getLast? := by
        simpa [List.getLast?_cons_cons] using hb
      rcases List.mem_cons.1 hx with rfl | hx'
      · exact ha b (List.mem_of_mem_getLast? hb')
      · exact ih ht x hx' b hb'

theorem pairwise_le_head_mem :
    ∀ (l : List Int), l.Pairwise (· ≤ ·) → ∀ h ∈ l.head?, ∀ y ∈ l, h ≤ y := by
  intro l
  induction l with
  | nil => intro _ h hh; exact absurd hh (by simp)
  | cons a t _ =>
    intro hp h hh y hy
    rcases List.pairwise_cons.1 hp with ⟨ha, _⟩
    simp only [List.head?_cons, Option.mem_def, Option.some.injEq] at hh
    subst hh
    rcases List.mem_cons.1 hy with rfl | hy'
    · exact le_refl y
    · exact ha y hy'

theorem pctGo_const (c : ℚ) :
    ∀ (ys : List (Int × ℚ)), (∀ p ∈ ys, p.2 = c) →
      ∀ q ∈ pctGo c ys, ∀ r, q.2 = some r → r = 0 := by
  intro ys
  induction ys with
  | nil => intro _ q hq; exact absurd hq (List.not_mem_nil q)
  | cons y rest ih =>
    obtain ⟨d, p⟩ := y
    intro hconst q hq r hr
    have hp : p = c := hconst (d, p) (List.mem_cons_self _ _)
    subst hp
    simp only [pctGo] at hq
    rcases List.mem_cons.1 hq with rfl | hq'
    · simp only at hr
      have : ((p - p) / p : ℚ) = 0 := by rw [sub_self, zero_div]
      rw [this] at hr
      exact (Option.some.injEq _ _ ▸ hr).symm
    · exact ih (fun x hx => hconst x (List.mem_cons_of_mem _ hx)) q hq' r hr

theorem dropna_const (s : Series) (c : ℚ)
    (h : ∀ p ∈ s, ∀ v, p.2 = some v → v = c) :
    ∀ q ∈ dropna s, q.2 = c := by
  intro q hq
  rcases List.mem_filterMap.1 hq with ⟨p, hp, hfp⟩
  rcases p with ⟨d, v⟩
  cases v with
  | none => simp at hfp
  | some w =>
    simp only [Option.some.injEq] at hfp
    have := h (d, some w) hp w rfl
    rw [← hfp]
    exact this

theorem pctGo_countP_isSome (ys : List (Int × ℚ)) : ∀ (prev : ℚ),
    (pctGo prev ys).countP (fun p => p.2.isSome) = ys.length := by
  induction ys with
  | nil => intro prev; rfl
  | cons y rest ih =>
    intro prev
    obtain ⟨d, p⟩ := y
    simp [pctGo, List.countP_cons, ih]

theorem pct_change_countP_isSome (ys : List (Int × ℚ)) :
    (pct_change ys).countP (fun p => p.2.isSome) = ys.length - 1 := by
  cases ys with
  | nil => rfl
  | cons y rest =>
    obtain ⟨d, p⟩ := y
    simp [pct_change, List.countP_cons, pctGo_countP_isSome]

theorem dropna_mkDaily (d0 : Int) (n : Nat) (vals : Nat → ℚ) :
    dropna (mkDaily d0 n vals)
      = (List.range n).map (fun i => (d0 + Int.ofNat i, vals i)) := by
  unfold dropna mkDaily
  induction (List.range n) with
  | nil => rfl
  | cons a l ih => simp only [List.map_cons, List.filterMap_cons, ih]

theorem weekLabels_length_cons (x : Int × ℚ) (xs : List (Int × ℚ)) :
    (weekLabels (x :: xs)).length
      = (weekLabel (xs.getLastD x).1 - weekLabel x.1).toNat / 7 + 1 := by
  unfold weekLabels
  simp only [List.length_map, List.length_range]

theorem pctGo_mem_adj (d1 d2 : Int) (p1 p2 : ℚ) :
    ∀ (X : List (Int × ℚ)) (prev : ℚ) (Y : List (Int × ℚ)),
      (d2, some ((p2 - p1) / p1)) ∈ pctGo prev (X ++ (d1, p1) :: (d2, p2) :: Y) := by
  intro X
  induction X with
  | nil =>
    intro prev Y
    simp [pctGo]
  | cons x xs ih =>
    intro prev Y
    obtain ⟨d, p⟩ := x
    simp only [List.cons_append, pctGo]
    exact List.mem_cons_of_mem _ (ih p Y)

theorem pct_change_mem_adj (X Y : List (Int × ℚ)) (d1 d2 : Int) (p1 p2 : ℚ) :
    (d2, some ((p2 - p1) / p1)) ∈ pct_change (X ++ (d1, p1) :: (d2, p2) :: Y) := by
  cases X with
  | nil =>
    simp [pct_change, pctGo]
  | cons x xs =>
    obtain ⟨d, p⟩ := x
    simp only [List.cons_append, pct_change]
    exact List.mem_cons_of_mem _ (pctGo_mem_adj d1 d2 p1 p2 xs p Y)

/-- C1.  The spec claims `update_prices` never leaves two rows with the
same date, but `drop_duplicates(keep='last')` compares row values and
ignores the date index: merging an existing row `(0, [1])` with a
same-day correction `(0, [2])` keeps both rows, leaving date `0`
duplicated. -/
theorem update_prices_duplicate_dates_eval :
    (update_prices [((0 : Int), [some (1 : ℚ)])] [((0 : Int), [some (2 : ℚ)])]).map Prod.fst
      = [0, 0] ∧
    ¬ ((update_prices [((0 : Int), [some (1 : ℚ)])] [((0 : Int), [some (2 : ℚ)])]).map
        Prod.fst).Nodup := by
  constructor
  · rfl
  · decide

/-- C2.  The spec claims the incremental row wins on a duplicate date,
but with `drop_duplicates(keep='last')` the old row `(5, [10])` survives
next to the incremental row `(5, [11])`: the old value is still present
at that date. -/
theorem update_prices_old_row_survives_eval :
    ((5 : Int), [some (10 : ℚ)]) ∈
        update_prices [((5 : Int), [some (10 : ℚ)])] [((5 : Int), [some (11 : ℚ)])] ∧
    [some (10 : ℚ)] ≠ [some (11 : ℚ)] := by
  constructor
  · decide
  · decide

/-- C4.  The spec claims a merge whose incremental dates already lie in
the existing table keeps the row count; but `drop_duplicates(keep='last')`
deduplicates by value tuple across *different* dates: re-fetching the
unchanged row `(1, [1])` into `[(0, [1]), (1, [1])]` collapses the two
equal-valued rows of dates 0 and 1 into one, shrinking the table from 2
rows to 1. -/
theorem update_prices_contained_shrinks_eval :
    (update_prices [((0 : Int), [some (1 : ℚ)]), ((1 : Int), [some (1 : ℚ)])]
        [((1 : Int), [some (1 : ℚ)])]).length = 1 ∧
    ([((0 : Int), [some (1 : ℚ)]), ((1 : Int), [some (1 : ℚ)])] : Table).length = 2 := by
  constructor
  · rfl
  · rfl

/-- C3.  If the existing table's dates are ascending, the incremental
table's dates are ascending, and the incremental table's first date is
not earlier than the existing table's last date, then the table returned
by `update_prices` has its rows in ascending (non-decreasing) date
order: concatenation keeps the dates sorted and
`drop_duplicates(keep='last')` only removes rows, preserving order. -/
theorem update_prices_sorted (ex inc : Table)
    (h1 : List.Chain' (· ≤ ·) (ex.map Prod.fst))
    (h2 : List.Chain' (· ≤ ·) (inc.map Prod.fst))
    (h3 : ∀ a ∈ ex.getLast?, ∀ b ∈ inc.head?, a.1 ≤ b.1) :
    List.Chain' (· ≤ ·) ((update_prices ex inc).map Prod.fst) := by
  rw [List.chain'_iff_pairwise] at h1 h2 ⊢
  have hsub : List.Sublist ((update_prices ex inc).map Prod.fst)
      ((ex ++ inc).map Prod.fst) :=
    (dropDupKeepLast_sublist (ex ++ inc)).map Prod.fst
  refine List.Pairwise.sublist hsub ?_
  rw [List.map_append, List.pairwise_append]
  refine ⟨h1, h2, ?_⟩
  intro x hx y hy
  rcases List.mem_map.1 hx with ⟨a, ha, rfl⟩
  rcases List.mem_map.1 hy with ⟨b, hb, rfl⟩
  have hexne : ex ≠ [] := fun h => by subst h; exact absurd ha (List.not_mem_nil a)
  have hincne : inc ≠ [] := fun h => by subst h; exact absurd hb (List.not_mem_nil b)
  obtain ⟨la, hla⟩ := Option.isSome_iff_exists.1 (List.getLast?_isSome.2 hexne)
  obtain ⟨hd, hhd⟩ := Option.isSome_iff_exists.1 (List.head?_isSome.2 hincne)
  have h4 : a.1 ≤ la.1 := by
    refine pairwise_le_mem_getLast (ex.map Prod.fst) h1 a.1 (List.mem_map_of_mem _ ha) la.1 ?_
    rw [List.getLast?_map, hla]
    rfl
  have h5 : hd.1 ≤ b.1 := by
    refine pairwise_le_head_mem (inc.map Prod.fst) h2 hd.1 ?_ b.1 (List.mem_map_of_mem _ hb)
    rw [List.head?_map, hhd]
    rfl
  have h6 : la.1 ≤ hd.1 := h3 la (by rw [hla]; rfl) hd (by rw [hhd]; rfl)
  exact le_trans h4 (le_trans h6 h5)

theorem update_prices_sorted_witness :
    List.Chain' (· ≤ ·)
      (([((0 : Int), [some (1 : ℚ)]), ((1 : Int), [some (2 : ℚ)])] : Table).map Prod.fst) ∧
    List.Chain' (· ≤ ·)
      (([((1 : Int), [some (3 : ℚ)]), ((2 : Int), [some (4 : ℚ)])] : Table).map Prod.fst) ∧
    (∀ a ∈ ([((0 : Int), [some (1 : ℚ)]), ((1 : Int), [some (2 : ℚ)])] : Table).getLast?,
      ∀ b ∈ ([((1 : Int), [some (3 : ℚ)]), ((2 : Int), [some (4 : ℚ)])] : Table).head?,
        a.1 ≤ b.1) ∧
    List.Chain' (· ≤ ·)
      ((update_prices [((0 : Int), [some (1 : ℚ)]), ((1 : Int), [some (2 : ℚ)])]
          [((1 : Int), [some (3 : ℚ)]), ((2 : Int), [some (4 : ℚ)])]).map Prod.fst) := by
  refine ⟨by simp, by simp, ?_, ?_⟩
  · intro a ha b hb
    simp only [List.getLast?, Option.mem_def, Option.some.injEq] at ha
    simp only [List.head?, Option.mem_def, Option.some.injEq] at hb
    rw [← ha, ← hb]
    decide
  · refine update_prices_sorted _ _ (by simp) (by simp) ?_
    intro a ha b hb
    simp only [List.getLast?, Option.mem_def, Option.some.injEq] at ha
    simp only [List.head?, Option.mem_def, Option.some.injEq] at hb
    rw [← ha, ← hb]
    decide

/-- C5.  On a non-empty price series whose present values all equal the
same positive constant `c`, every defined entry of
`compute_daily_returns` is `0`: after `dropna()` the series is constant,
so each `pct_change` entry after the first is `(c - c) / c = 0`. -/
theorem compute_daily_returns_const_zero (s : Series) (c : ℚ)
    (hne : s ≠ []) (hc : 0 < c)
    (hconst : ∀ p ∈ s, ∀ v, p.2 = some v → v = c) :
    ∀ q ∈ compute_daily_returns s, ∀ r, q.2 = some r → r = 0 := by
  unfold compute_daily_returns
  have hdrop := dropna_const s c hconst
  cases hd : dropna s with
  | nil => simp [pct_change]
  | cons x rest =>
    obtain ⟨d, p⟩ := x
    have hp : p = c := by
      have := hdrop (d, p) (hd ▸ List.mem_cons_self _ _)
      simpa using this
    have hrest : ∀ q ∈ rest, q.2 = c := fun q hq =>
      hdrop q (hd ▸ List.mem_cons_of_mem _ hq)
    intro q hq r hr
    simp only [pct_change] at hq
    rcases List.mem_cons.1 hq with rfl | hq'
    · simp at hr
    · subst hp
      exact pctGo_const p rest hrest q hq' r hr

theorem compute_daily_returns_const_zero_witness :
    ([((0 : Int), some (2 : ℚ)), ((1 : Int), some (2 : ℚ))] : Series) ≠ [] ∧
    (0 : ℚ) < 2 ∧
    (∀ p ∈ ([((0 : Int), some (2 : ℚ)), ((1 : Int), some (2 : ℚ))] : Series),
      ∀ v, p.2 = some v → v = 2) ∧
    ∀ q ∈ compute_daily_returns [((0 : Int), some (2 : ℚ)), ((1 : Int), some (2 : ℚ))],
      ∀ r, q.2 = some r → r = 0 := by
  refine ⟨by decide, by decide, by decide, ?_⟩
  exact compute_daily_returns_const_zero _ 2 (by decide) (by decide) (by decide)

/-- C6.  A single missing value between two present observations
`(da, pa)` and `(db, pb)` does not break return continuity:
`compute_daily_returns` emits at date `db` the return
`(pb - pa) / pa`, bridging the gap between the two nearest available
observations rather than treating it as zero or failing. -/
theorem compute_daily_returns_bridges_gap (s1 s2 : Series)
    (da dm db : Int) (pa pb : ℚ) (hpa : 0 < pa) :
    (db, some ((pb - pa) / pa)) ∈
      compute_daily_returns (s1 ++ (da, some pa) :: (dm, none) :: (db, some pb) :: s2) := by
  unfold compute_daily_returns
  have hsplit : dropna (s1 ++ (da, some pa) :: (dm, none) :: (db, some pb) :: s2)
      = dropna s1 ++ (da, pa) :: (db, pb) :: dropna s2 := by
    simp [dropna, List.filterMap_append]
  rw [hsplit]
  exact pct_change_mem_adj (dropna s1) (dropna s2) da db pa pb

theorem compute_daily_returns_bridges_gap_witness :
    (0 : ℚ) < 1 ∧
    ((2 : Int), some ((3 - 1) / 1 : ℚ)) ∈
      compute_daily_returns
        (([] : Series) ++ ((0 : Int), some (1 : ℚ)) :: ((1 : Int), (none : Option ℚ)) ::
          ((2 : Int), some (3 : ℚ)) :: ([] : Series)) :=
  ⟨by decide, compute_daily_returns_bridges_gap [] [] 0 1 2 1 3 (by decide)⟩

/-- C7 (counterexample).  A 14-day daily series starting on a Monday
(`d0 % 7 = 1`) spans exactly two weekly bins, so
`compute_weekly_returns` produces only 1 defined value, not 2 as the
spec claims for every 14-day series. -/
theorem compute_weekly_returns_14d_monday_counterexample :
    ¬ ((compute_weekly_returns (mkDaily 1 14 (fun _ => 1))).countP
        (fun p => p.2.isSome) = 2) := by decide

/-- C7 (amended).  A daily series with one value per day over 14
consecutive days produces exactly 2 defined weekly return values
provided the series does not start on a Monday (`d0 % 7 ≠ 1`, Sunday
being `% 7 = 0`): only then do the 14 days span three weekly bins, so
the forward-filled weekly series has 3 entries and `pct_change` defines
2 of them. -/
theorem compute_weekly_returns_14d_two_values (d0 : Int) (vals : Nat → ℚ)
    (h : d0 % 7 ≠ 1) :
    (compute_weekly_returns (mkDaily d0 14 vals)).countP (fun p => p.2.isSome) = 2 := by
  unfold compute_weekly_returns
  rw [pct_change_countP_isSome, dropna_mkDaily]
  have h14 : List.range 14 = [0, 1, 2, 3, 4, 5, 6, 7, 8, 9, 10, 11, 12, 13] := rfl
  rw [h14]
  simp only [List.map_cons, List.map_nil]
  unfold resampleWeeklyFfill
  rw [List.length_map, weekLabels_length_cons]
  simp only [List.getLastD_cons, List.getLastD_nil]
  have e13 : Int.ofNat 13 = (13 : Int) := rfl
  have e0 : Int.ofNat 0 = (0 : Int) := rfl
  rw [e13, e0, add_zero]
  unfold weekLabel
  omega

theorem compute_weekly_returns_14d_two_values_witness :
    ((2 : Int) % 7 ≠ 1) ∧
    (compute_weekly_returns (mkDaily 2 14 (fun _ => 1))).countP
      (fun p => p.2.isSome) = 2 :=
  ⟨by decide, compute_weekly_returns_14d_two_values 2 (fun _ => 1) (by decide)⟩

/-- C8.  On the cached-table path of `main` (`prices.parquet` exists), an
incremental fetch-and-merge happens iff the cached table's latest date is
older than 2 days before the current time; the fetch range then starts at
the latest cached date, and the merged table feeds the return
computation.  Otherwise no fetch happens and the cached table is used
unchanged for the return computation. -/
theorem mainRun_staleness (initData : Table) (fetchIncr : Int → Table)
    (today : ℚ) (cached : Table) (w : Nat) (hne : cached ≠ []) :
    (((latestDate cached : ℚ) < today - 2) →
        (mainRun true initData fetchIncr today cached w).fetchedSince
            = some (latestDate cached) ∧
        (mainRun true initData fetchIncr today cached w).finalPrices
            = update_prices cached (fetchIncr (latestDate cached))) ∧
    (¬ ((latestDate cached : ℚ) < today - 2) →
        (mainRun true initData fetchIncr today cached w).fetchedSince = none ∧
        (mainRun true initData fetchIncr today cached w).finalPrices = cached ∧
        (mainRun true initData fetchIncr today cached w).dailyOut
            = (get_returns cached w).1 ∧
        (mainRun true initData fetchIncr today cached w).weeklyOut
            = (get_returns cached w).2) := by
  constructor
  · intro hstale
    simp [mainRun, hstale]
  · intro hfresh
    simp [mainRun, hfresh]

theorem mainRun_staleness_witness :
    ([((0 : Int), ([] : Row))] : Table) ≠ [] ∧
    ((latestDate [((0 : Int), ([] : Row))] : ℚ) < 10 - 2) ∧
    ((mainRun true [] (fun _ => []) 10 [((0 : Int), ([] : Row))] 0).fetchedSince
        = some (latestDate [((0 : Int), ([] : Row))]) ∧
      (mainRun true [] (fun _ => []) 10 [((0 : Int), ([] : Row))] 0).finalPrices
        = update_prices [((0 : Int), ([] : Row))]
            ((fun _ => ([] : Table)) (latestDate [((0 : Int), ([] : Row))]))) := by
  have hl : latestDate [((0 : Int), ([] : Row))] = 0 := rfl
  have hc : ((latestDate [((0 : Int), ([] : Row))] : ℚ) < 10 - 2) := by
    rw [hl]
    norm_num
  exact ⟨by simp, hc, (mainRun_staleness [] (fun _ => []) 10 _ 0 (by simp)).1 hc⟩

theorem dropna_all_none (s : Series) (h : ∀ p ∈ s, p.2 = none) : dropna s = [] := by
  induction s with
  | nil => rfl
  | cons p rest ih =>
    obtain ⟨d, v⟩ := p
    have hv : v = none := h (d, v) (List.mem_cons_self _ _)
    subst hv
    simp only [dropna, List.filterMap_cons]
    exact ih (fun q hq => h q (List.mem_cons_of_mem _ hq))

theorem compute_daily_returns_all_none (s : Series) (h : ∀ p ∈ s, p.2 = none) :
    compute_daily_returns s = [] := by
  unfold compute_daily_returns
  rw [dropna_all_none s h]
  rfl

theorem compute_weekly_returns_all_none (s : Series) (h : ∀ p ∈ s, p.2 = none) :
    compute_weekly_returns s = [] := by
  unfold compute_weekly_returns
  rw [dropna_all_none s h]
  rfl

theorem row_getD_of_mem_concatCols (cols : List Series) (row : Int × Row) (j : Nat)
    (hrow : row ∈ concatCols cols) (hj : j < cols.length) :
    row.2.getD j none = lookupVal (cols.get ⟨j, hj⟩) row.1 := by
  rcases List.mem_map.1 hrow with ⟨d, _hd, rfl⟩
  simp only [List.getD_eq_getElem?_getD, List.getElem?_map]
  rw [List.getElem?_eq_getElem hj]
  rfl

/-- C9.  If ticker column `j` of the price table is entirely missing,
`get_returns` still goes through (the embedding is total at such inputs,
as the Python functions raise nothing on an all-NaN column: `dropna`
simply empties it) and column `j` of both the daily and the weekly
return outputs is missing in every row — silently, with no flag. -/
theorem get_returns_all_missing_column (prices : Table) (w j : Nat)
    (hj : j < w) (hmiss : ∀ r ∈ prices, r.2.getD j none = none) :
    (∀ row ∈ (get_returns prices w).1, row.2.getD j none = none) ∧
    (∀ row ∈ (get_returns prices w).2, row.2.getD j none = none) := by
  have hcol : ∀ p ∈ colSeries prices j, p.2 = none := by
    intro p hp
    rcases List.mem_map.1 hp with ⟨r, hr, rfl⟩
    exact hmiss r hr
  constructor
  · intro row hrow
    have hrow' : row ∈ concatCols
        ((List.range w).map (fun k => compute_daily_returns (colSeries prices k))) :=
      List.mem_of_mem_filter hrow
    have hlen : j < ((List.range w).map
        (fun k => compute_daily_returns (colSeries prices k))).length := by
      simpa using hj
    rw [row_getD_of_mem_concatCols _ row j hrow' hlen]
    have hget : ((List.range w).map
        (fun k => compute_daily_returns (colSeries prices k))).get ⟨j, hlen⟩
        = compute_daily_returns (colSeries prices j) := by
      simp
    rw [hget, compute_daily_returns_all_none _ hcol]
    rfl
  · intro row hrow
    have hrow' : row ∈ concatCols
        ((List.range w).map (fun k => compute_weekly_returns (colSeries prices k))) :=
      List.mem_of_mem_filter hrow
    have hlen : j < ((List.range w).map
        (fun k => compute_weekly_returns (colSeries prices k))).length := by
      simpa using hj
    rw [row_getD_of_mem_concatCols _ row j hrow' hlen]
    have hget : ((List.range w).map
        (fun k => compute_weekly_returns (colSeries prices k))).get ⟨j, hlen⟩
        = compute_weekly_returns (colSeries prices j) := by
      simp
    rw [hget, compute_weekly_returns_all_none _ hcol]
    rfl

theorem get_returns_all_missing_column_witness :
    (1 : Nat) < 2 ∧
    (∀ r ∈ ([((0 : Int), [some (1 : ℚ), none]), ((1 : Int), [some (2 : ℚ), none])] : Table),
      r.2.getD 1 none = none) ∧
    ((∀ row ∈ (get_returns
          [((0 : Int), [some (1 : ℚ), none]), ((1 : Int), [some (2 : ℚ), none])] 2).1,
        row.2.getD 1 none = none) ∧
      (∀ row ∈ (get_returns
          [((0 : Int), [some (1 : ℚ), none]), ((1 : Int), [some (2 : ℚ), none])] 2).2,
        row.2.getD 1 none = none)) :=
  ⟨by decide, by decide,
    get_returns_all_missing_column _ 2 1 (by decide) (by decide)⟩

theorem pctGo_date_mem (ys : List (Int × ℚ)) : ∀ (prev : ℚ), ∀ q ∈ pctGo prev ys,
    ∃ p ∈ ys, q.1 = p.1 := by
  induction ys with
  | nil => intro _ q hq; exact absurd hq (List.not_mem_nil q)
  | cons y rest ih =>
    intro prev q hq
    obtain ⟨d, p⟩ := y
    simp only [pctGo] at hq
    rcases List.mem_cons.1 hq with rfl | hq'
    · exact ⟨(d, p), List.mem_cons_self _ _, rfl⟩
    · rcases ih p q hq' with ⟨p', hp', he⟩
      exact ⟨p', List.mem_cons_of_mem _ hp', he⟩

theorem pct_change_date_mem (ys : List (Int × ℚ)) : ∀ q ∈ pct_change ys,
    ∃ p ∈ ys, q.1 = p.1 := by
  cases ys with
  | nil => intro q hq; exact absurd hq (List.not_mem_nil q)
  | cons y rest =>
    intro q hq
    obtain ⟨d, p⟩ := y
    simp only [pct_change] at hq
    rcases List.mem_cons.1 hq with rfl | hq'
    · exact ⟨(d, p), List.mem_cons_self _ _, rfl⟩
    · rcases pctGo_date_mem rest p q hq' with ⟨p', hp', he⟩
      exact ⟨p', List.mem_cons_of_mem _ hp', he⟩

theorem weekLabel_mod (d : Int) : weekLabel d % 7 = 0 := by
  unfold weekLabel
  omega

theorem weekLabels_mod (xs : List (Int × ℚ)) : ∀ L ∈ weekLabels xs, L % 7 = 0 := by
  cases xs with
  | nil => intro L hL; exact absurd hL (List.not_mem_nil L)
  | cons x rest =>
    intro L hL
    unfold weekLabels at hL
    rcases List.mem_map.1 hL with ⟨i, _hi, rfl⟩
    have h1 : weekLabel x.1 % 7 = 0 := weekLabel_mod x.1
    omega

/-- C10.  The dates of `compute_weekly_returns` are the week-ending bin
labels of the weekly resampling (Sundays, `% 7 = 0` in the model's
alignment), not dates drawn from the input, whereas every output date of
`compute_daily_returns` is a date present in the input series; and a
weekly return can indeed be dated on a day with no observation: on the
series `[(1, 1), (9, 2)]` the weekly output carries the defined return
`1` at date `14`, a date absent from the input. -/
theorem weekly_dates_are_bin_labels :
    (∀ (s : Series), ∀ q ∈ compute_weekly_returns s, q.1 % 7 = 0) ∧
    (∀ (s : Series), ∀ q ∈ compute_daily_returns s, ∃ v, (q.1, v) ∈ s) ∧
    (((14 : Int), some (1 : ℚ)) ∈
        compute_weekly_returns [((1 : Int), some (1 : ℚ)), ((9 : Int), some (2 : ℚ))] ∧
      ∀ v, ((14 : Int), v) ∉ [((1 : Int), some (1 : ℚ)), ((9 : Int), some (2 : ℚ))]) := by
  refine ⟨?_, ?_, ?_, ?_⟩
  · intro s q hq
    rcases pct_change_date_mem _ q hq with ⟨p, hp, he⟩
    rcases List.mem_map.1 hp with ⟨L, hL, rfl⟩
    rw [he]
    exact weekLabels_mod _ L hL
  · intro s q hq
    rcases pct_change_date_mem _ q hq with ⟨p, hp, he⟩
    rcases List.mem_filterMap.1 hp with ⟨orig, horig, hf⟩
    obtain ⟨d, v⟩ := orig
    cases v with
    | none => simp at hf
    | some pv =>
      simp only [Option.some.injEq] at hf
      refine ⟨some pv, ?_⟩
      have hd : q.1 = d := by rw [he, ← hf]
      rw [hd]
      exact horig
  · rw [show compute_weekly_returns [((1 : Int), some (1 : ℚ)), ((9 : Int), some (2 : ℚ))]
        = [(7, none), (14, some ((2 - 1) / 1))] from rfl]
    norm_num
  · intro v hv
    simp only [List.mem_cons, List.not_mem_nil, Prod.mk.injEq, or_false] at hv
    rcases hv with ⟨h, _⟩ | ⟨h, _⟩ <;> omega

theorem weekly_dates_are_bin_labels_witness :
    ((7 : Int), (none : Option ℚ)) ∈ compute_weekly_returns [((1 : Int), some (1 : ℚ))] ∧
    (7 : Int) % 7 = 0 :=
  ⟨by decide, weekly_dates_are_bin_labels.1 [((1 : Int), some (1 : ℚ))] (7, none) (by decide)⟩

end StocksDashboard
